import Mathlib

/-!
Verification of the lyrics normalization and syllable-segmentation core
(`yohane/lyrics.py`): the normalizer `normalize_uroman`, the tokenizer
(`transcript`, `transcript_for_alignment`, `Lyrics.lines`, `Line.words`)
and the language-polymorphic syllable splitter `auto_split`
(`split_english` with its custom dictionary, and the Japanese
`AUTO_SPLIT_RE` mora splitter).

Strings are modelled as `String` / `List Char`.  The external `pyphen`
hyphenator (a third-party library, not part of this repository) is passed
in as an explicit function argument `hyph`, standing for
`_ENGLISH_DICT.inserted(word, hyphen="|")`.
-/

namespace Yohane

/-! ### Character helpers (embedding of the Python string primitives) -/

/-- ASCII lowercasing, embedding Python `str.lower`.  Non-ASCII case
mappings are irrelevant downstream because every character outside the
keep-set `[a-z'\n ()]` is replaced by a space immediately after lowering,
and all inputs of interest are ASCII. -/
def pyLower (c : Char) : Char :=
  if 'A' ≤ c ∧ c ≤ 'Z' then Char.ofNat (c.toNat + 32) else c

/-- Embedding of `text.replace("'", "'")` from the source: both glyphs in the source
line are the ASCII apostrophe, so the replacement maps `'` to itself. -/
def fixApos (c : Char) : Char := if c = '\'' then '\'' else c

/-- The keep-set `[a-z'\n ()]` of the normalizer. -/
def isAllowed (c : Char) : Bool :=
  ('a' ≤ c && c ≤ 'z') || c = '\'' || c = '\n' || c = ' ' || c = '(' || c = ')'

/-- Embedding of `re.sub("([^a-z'\n ()])", " ", text)`: every character outside the
keep-set becomes a single space. -/
def toSpace (c : Char) : Char := if isAllowed c then c else ' '

/-- Character class `[\n ]` used by the newline-collapsing regex. -/
def isNlSp (c : Char) : Bool := c = '\n' || c = ' '

/-- Embedding of `re.sub("\n[\n ]+", "\n", text)` as a left-to-right scan: after a kept
newline, all immediately following newlines and spaces are dropped
(`absorb` is true exactly when the previously kept character was a newline
or we are still inside such an absorbed run). -/
def collapseNLAux : Bool → List Char → List Char
  | _, [] => []
  | absorb, c :: rest =>
    if absorb && isNlSp c then collapseNLAux true rest
    else c :: collapseNLAux (c == '\n') rest

def collapseNL (l : List Char) : List Char := collapseNLAux false l

/-- Embedding of `re.sub(" +", " ", text)`: a space following a kept space is dropped. -/
def collapseSpAux : Bool → List Char → List Char
  | _, [] => []
  | absorb, c :: rest =>
    if absorb && c == ' ' then collapseSpAux true rest
    else c :: collapseSpAux (c == ' ') rest

def collapseSp (l : List Char) : List Char := collapseSpAux false l

/-- Python whitespace, for `str.strip()` and `str.split()`. -/
def isPyWS (c : Char) : Bool :=
  c = ' ' || c = '\n' || c = '\t' || c = '\r' || c = '\x0b' || c = '\x0c'

/-- Python `str.strip()`: drop whitespace from both ends. -/
def pyStrip (l : List Char) : List Char :=
  ((l.dropWhile isPyWS).reverse.dropWhile isPyWS).reverse

/-! ### `normalize_uroman` -/

/-- The normalizer `normalize_uroman` on the character list: lowercase, apostrophe
replacement, keep-set filter to spaces, newline-run collapse, space-run
collapse, strip — in source order. -/
def normalizeL (l : List Char) : List Char :=
  pyStrip (collapseSp (collapseNL (((l.map pyLower).map fixApos).map toSpace)))

def normalize_uroman (s : String) : String := String.mk (normalizeL s.toList)

/-- Embedding of `strip_parens`: `text.replace("(", "").replace(")", "")`. -/
def stripParensL (l : List Char) : List Char :=
  (l.filter (fun c => c != '(')).filter (fun c => c != ')')

def strip_parens (s : String) : String := String.mk (stripParensL s.toList)

/-! ### Tokenization (`transcript`, `transcript_for_alignment`, lines, words) -/

/-- Python `str.split()` with no argument: split on runs of whitespace,
never producing empty tokens.  `acc` is the current token, reversed. -/
def splitWsAux : List Char → List Char → List (List Char)
  | acc, [] => if acc.isEmpty then [] else [acc.reverse]
  | acc, c :: rest =>
    if isPyWS c then
      if acc.isEmpty then splitWsAux [] rest else acc.reverse :: splitWsAux [] rest
    else splitWsAux (c :: acc) rest

def splitWs (l : List Char) : List (List Char) := splitWsAux [] l

/-- Embedding of `_Text.transcript`: `self.normalized.split()`. -/
def transcript (raw : String) : List String :=
  (splitWs (normalizeL raw.toList)).map String.mk

/-- Embedding of `_Text.transcript_for_alignment`: `strip_parens(self.normalized).split()`. -/
def transcript_for_alignment (raw : String) : List String :=
  (splitWs (stripParensL (normalizeL raw.toList))).map String.mk

/-- Python `str.splitlines()` restricted to `\n` separators (the only line
break occurring in this pipeline's text); no trailing empty line is
produced. -/
def splitlinesAux : List Char → List Char → List (List Char)
  | acc, [] => if acc.isEmpty then [] else [acc.reverse]
  | acc, c :: rest =>
    if c == '\n' then acc.reverse :: splitlinesAux [] rest
    else splitlinesAux (c :: acc) rest

def splitlines (l : List Char) : List (List Char) := splitlinesAux [] l

/-- The raw texts of `Lyrics.lines`:
`[Line(line, ...) for line in filter(None, self.raw.splitlines())]`. -/
def lyricsLineRaws (raw : String) : List String :=
  ((splitlines raw.toList).filter (fun l => !l.isEmpty)).map String.mk

/-- The raw texts of `Line.words`:
`[Word(word, ...) for word in filter(None, self.transcript)]`. -/
def lineWordRaws (raw : String) : List String :=
  (transcript raw).filter (fun w => !w.isEmpty)

/-! ### Japanese splitter (`AUTO_SPLIT_RE`) -/

def isVowel (c : Char) : Bool :=
  c = 'a' || c = 'e' || c = 'i' || c = 'o' || c = 'u'

/-- The consonant set `[ktnfmrwpbdgzcj]` of the fourth alternative. -/
def isJaConsonant (c : Char) : Bool :=
  c = 'k' || c = 't' || c = 'n' || c = 'f' || c = 'm' || c = 'r' || c = 'w' ||
  c = 'p' || c = 'b' || c = 'd' || c = 'g' || c = 'z' || c = 'c' || c = 'j'

/-- The letters of the lookbehind class `[^kstnhfmrwpbdgzcj]` (complemented,
guards the `y` alternative). -/
def isYBlocker (c : Char) : Bool :=
  c = 'k' || c = 's' || c = 't' || c = 'n' || c = 'h' || c = 'f' || c = 'm' ||
  c = 'r' || c = 'w' || c = 'p' || c = 'b' || c = 'd' || c = 'g' || c = 'z' ||
  c = 'c' || c = 'j'

/-- ASCII letters and digits, standing in for POSIX `[[:alnum:]]` (the
words this pipeline feeds the splitter are ASCII). -/
def isAlnum (c : Char) : Bool :=
  ('a' ≤ c && c ≤ 'z') || ('A' ≤ c && c ≤ 'Z') || ('0' ≤ c && c ≤ '9')

/-- One zero-width position of `AUTO_SPLIT_RE` (case-insensitive via
`pyLower`): `prev` is the character before the position (`none` at the
word start), `next` the character right after it.  The five alternatives:
`h` not after `s`/`c`; `y` not after `[kstnhfmrwpbdgzcj]`; `s` not after
`t`; any of `[ktnfmrwpbdgzcj]`; a vowel after a vowel or a non-alnum. -/
def jaBoundary (prev : Option Char) (next : Char) : Bool :=
  let n := pyLower next
  match prev with
  | none => isJaConsonant n
  | some p0 =>
    let p := pyLower p0
    (n = 'h' && !(p = 's' || p = 'c')) ||
    (n = 'y' && !isYBlocker p) ||
    (n = 's' && !(p = 't')) ||
    isJaConsonant n ||
    (isVowel n && (isVowel p || !isAlnum p))

/-- Embedding of `AUTO_SPLIT_RE.subn("#@", word)`: insert the marker `#@` at every
boundary position (the regex is zero-width, so substitution inserts the
marker before each matched position and keeps every character). -/
def markedAux : Option Char → List Char → List Char
  | _, [] => []
  | prev, c :: rest =>
    (if jaBoundary prev c then ['#', '@'] else []) ++ c :: markedAux (some c) rest

def marked (w : List Char) : List Char := markedAux none w

/-- Embedding of `re.split("#@", s)`: the fragments between non-overlapping leftmost
occurrences of the two-character marker.  `acc` is the current fragment,
reversed. -/
def splitOnMarkerAux : List Char → List Char → List (List Char)
  | acc, [] => [acc.reverse]
  | acc, c :: rest =>
    match rest with
    | [] => [(c :: acc).reverse]
    | d :: rest' =>
      if c = '#' && d = '@' then acc.reverse :: splitOnMarkerAux [] rest'
      else splitOnMarkerAux (c :: acc) (d :: rest')

/-- The Japanese branch of `auto_split`: mark, split on the marker, drop
empty fragments (`filter(None, syllables)`). -/
def jaSplitL (w : List Char) : List (List Char) :=
  (splitOnMarkerAux [] (marked w)).filter (fun f => !f.isEmpty)

/-- Does `l` contain the two-character marker `#@` as a substring?  (A word
containing the internal marker would be corrupted by the mark-then-split
round trip; no word produced by the normalizer can contain it.) -/
def hasMarker : List Char → Bool
  | [] => false
  | c :: rest =>
    match rest with
    | [] => false
    | d :: _ => (c = '#' && d = '@') || hasMarker rest

/-! ### English splitter (`split_english`) -/

/-- The table `_CUSTOM_ENGLISH_SYLLABLES` from the source, in source order. -/
def customEnglishSyllables : List (String × List String) :=
  [("singing", ["sing", "ing"]),
   ("melody", ["mel", "o", "dy"]),
   ("karaoke", ["kar", "a", "o", "ke"]),
   ("rhythm", ["rhythm"]),
   ("tonight", ["to", "night"]),
   ("everyday", ["ev", "ry", "day"]),
   ("someday", ["some", "day"]),
   ("sunday", ["sun", "day"]),
   ("monday", ["mon", "day"]),
   ("tuesday", ["tues", "day"]),
   ("wednesday", ["wednes", "day"]),
   ("thursday", ["thurs", "day"]),
   ("friday", ["fri", "day"]),
   ("saturday", ["sat", "ur", "day"]),
   ("gonna", ["gon", "na"]),
   ("wanna", ["wan", "na"]),
   ("gotta", ["got", "ta"]),
   ("kinda", ["kin", "da"]),
   ("sorta", ["sor", "ta"]),
   ("outta", ["out", "ta"]),
   ("coulda", ["could", "a"]),
   ("shoulda", ["should", "a"]),
   ("woulda", ["would", "a"]),
   ("loving", ["lov", "ing"]),
   ("feeling", ["feel", "ing"]),
   ("dreaming", ["dream", "ing"]),
   ("hoping", ["hop", "ing"]),
   ("baby", ["ba", "by"]),
   ("maybe", ["may", "be"]),
   ("crazy", ["cra", "zy"]),
   ("lady", ["la", "dy"]),
   ("lately", ["late", "ly"]),
   ("lonely", ["lone", "ly"]),
   ("only", ["on", "ly"]),
   ("really", ["re", "al", "ly"]),
   ("yeah", ["yeah"]),
   ("whoa", ["whoa"]),
   ("woah", ["woah"])]

/-- Embedding of `result.split("|")`: fragments between occurrences of the pyphen
hyphen marker. -/
def splitOnPipeAux : List Char → List Char → List (List Char)
  | acc, [] => [acc.reverse]
  | acc, c :: rest =>
    if c = '|' then acc.reverse :: splitOnPipeAux [] rest
    else splitOnPipeAux (c :: acc) rest

/-- Embedding of `split_english`: custom-dictionary lookup first, then the pyphen
fallback `result.split("|") if result else [word]`.  `hyph` stands for the
external `_ENGLISH_DICT.inserted(word, hyphen="|")`. -/
def split_english (hyph : String → String) (word : String) : List String :=
  match customEnglishSyllables.lookup word with
  | some syls => syls
  | none =>
    let result := hyph word
    if result.isEmpty then [word]
    else (splitOnPipeAux [] result.toList).map String.mk

/-- Embedding of `auto_split`: dispatch on the language tag; anything other than `"en"`
takes the Japanese branch (the source comment reads `Japanese (default)`). -/
def auto_split (hyph : String → String) (word : String) (language : String) :
    List String :=
  if language = "en" then split_english hyph word
  else (jaSplitL word.toList).map String.mk

/-! ### Bridge lemmas between `String` and `List Char` -/

theorem mk_toList (s : String) : String.mk s.toList = s := rfl

theorem join_foldl (L : List (List Char)) :
    ∀ accl : List Char,
      List.foldl (· ++ ·) (String.mk accl) (L.map String.mk) =
        String.mk (accl ++ L.flatten) := by
  induction L with
  | nil => intro accl; simp
  | cons h t ih =>
    intro accl
    have : String.mk accl ++ String.mk h = String.mk (accl ++ h) := rfl
    simp only [List.map_cons, List.foldl_cons, this, ih, List.flatten_cons,
      List.append_assoc]

/-- Joining `String.mk`-wrapped fragments with `String.join` is `List.flatten`. -/
theorem join_map_mk (L : List (List Char)) :
    String.join (L.map String.mk) = String.mk L.flatten := by
  have := join_foldl L []
  simpa [String.join] using this

/-! ### Normalizer invariants -/

/-- Relation: a newline is never directly followed by a newline or a space
(the regex `\n[\n ]+` has no match left). -/
def nlOk (a b : Char) : Prop := a = '\n' → isNlSp b = false

/-- Relation: a space is never directly followed by a space. -/
def spOk (a b : Char) : Prop := a = ' ' → b ≠ ' '

theorem isAllowed_toSpace (c : Char) : isAllowed (toSpace c) = true := by
  unfold toSpace
  split
  · assumption
  · decide

theorem mem_collapseNLAux {c : Char} {l : List Char} :
    ∀ {b : Bool}, c ∈ collapseNLAux b l → c ∈ l := by
  induction l with
  | nil => intro b h; simp [collapseNLAux] at h
  | cons a rest ih =>
    intro b h
    simp only [collapseNLAux] at h
    by_cases hc : (b && isNlSp a) = true
    · rw [if_pos hc] at h
      exact List.mem_cons_of_mem _ (ih h)
    · rw [if_neg hc] at h
      rcases List.mem_cons.mp h with h1 | h2
      · exact h1 ▸ List.mem_cons_self _ _
      · exact List.mem_cons_of_mem _ (ih h2)

theorem mem_collapseSpAux {c : Char} {l : List Char} :
    ∀ {b : Bool}, c ∈ collapseSpAux b l → c ∈ l := by
  induction l with
  | nil => intro b h; simp [collapseSpAux] at h
  | cons a rest ih =>
    intro b h
    simp only [collapseSpAux] at h
    by_cases hc : (b && (a == ' ')) = true
    · rw [if_pos hc] at h
      exact List.mem_cons_of_mem _ (ih h)
    · rw [if_neg hc] at h
      rcases List.mem_cons.mp h with h1 | h2
      · exact h1 ▸ List.mem_cons_self _ _
      · exact List.mem_cons_of_mem _ (ih h2)

theorem head_collapseNLAux_true {l : List Char} :
    ∀ {c : Char}, (collapseNLAux true l).head? = some c → isNlSp c = false := by
  induction l with
  | nil => intro c h; simp [collapseNLAux] at h
  | cons a rest ih =>
    intro c h
    simp only [collapseNLAux, Bool.true_and] at h
    by_cases ha : isNlSp a = true
    · rw [if_pos ha] at h
      exact ih h
    · rw [if_neg ha] at h
      simp only [List.head?_cons, Option.some.injEq] at h
      rw [← h]
      cases hval : isNlSp a with
      | false => rfl
      | true => exact absurd hval ha

theorem chain_nlOk_collapseNLAux (l : List Char) :
    ∀ b, List.Chain' nlOk (collapseNLAux b l) := by
  induction l with
  | nil => intro b; simp [collapseNLAux]
  | cons a rest ih =>
    intro b
    simp only [collapseNLAux]
    by_cases hc : (b && isNlSp a) = true
    · rw [if_pos hc]; exact ih true
    · rw [if_neg hc]
      rw [List.chain'_cons']
      refine ⟨?_, ih _⟩
      intro d hd hna
      subst hna
      have hd' : (collapseNLAux true rest).head? = some d := by
        simpa [Option.mem_def] using hd
      exact head_collapseNLAux_true hd'

theorem head_collapseSpAux_false (l : List Char) :
    (collapseSpAux false l).head? = l.head? := by
  cases l with
  | nil => rfl
  | cons a rest => simp [collapseSpAux]

theorem head_collapseSpAux_true {l : List Char} :
    ∀ {c : Char}, (collapseSpAux true l).head? = some c → c ≠ ' ' := by
  induction l with
  | nil => intro c h; simp [collapseSpAux] at h
  | cons a rest ih =>
    intro c h
    simp only [collapseSpAux, Bool.true_and] at h
    by_cases ha : (a == ' ') = true
    · rw [if_pos ha] at h
      exact ih h
    · rw [if_neg ha] at h
      simp only [List.head?_cons, Option.some.injEq] at h
      rw [← h]
      intro hcontra
      exact ha (by simp [hcontra])

theorem chain_spOk_collapseSpAux (l : List Char) :
    ∀ b, List.Chain' spOk (collapseSpAux b l) := by
  induction l with
  | nil => intro b; simp [collapseSpAux]
  | cons a rest ih =>
    intro b
    simp only [collapseSpAux]
    by_cases hc : (b && (a == ' ')) = true
    · rw [if_pos hc]; exact ih true
    · rw [if_neg hc]
      rw [List.chain'_cons']
      refine ⟨?_, ih _⟩
      intro d hd hna
      subst hna
      have hd' : (collapseSpAux true rest).head? = some d := by
        simpa [Option.mem_def] using hd
      exact head_collapseSpAux_true hd'

theorem chain_nlOk_collapseSpAux {l : List Char} :
    List.Chain' nlOk l → ∀ b, List.Chain' nlOk (collapseSpAux b l) := by
  induction l with
  | nil => intro _ b; simp [collapseSpAux]
  | cons a rest ih =>
    intro hch b
    obtain ⟨hhead, htail⟩ := List.chain'_cons'.mp hch
    simp only [collapseSpAux]
    by_cases hc : (b && (a == ' ')) = true
    · rw [if_pos hc]; exact ih htail true
    · rw [if_neg hc]
      rw [List.chain'_cons']
      refine ⟨?_, ih htail _⟩
      intro d hd hna
      subst hna
      have hne : ('\n' == ' ') = false := rfl
      rw [hne, head_collapseSpAux_false rest] at hd
      exact hhead d hd rfl

theorem collapseNLAux_eq_self {l : List Char} :
    List.Chain' nlOk l →
    ∀ b : Bool, (b = true → ∀ c, l.head? = some c → isNlSp c = false) →
    collapseNLAux b l = l := by
  induction l with
  | nil => intro _ b _; simp [collapseNLAux]
  | cons a rest ih =>
    intro hch b hb
    obtain ⟨hhead, htail⟩ := List.chain'_cons'.mp hch
    simp only [collapseNLAux]
    have hcond : (b && isNlSp a) = false := by
      cases b with
      | false => rfl
      | true =>
        have := hb rfl a rfl
        simp [this]
    rw [hcond]
    simp only [Bool.false_eq_true, if_false]
    congr 1
    apply ih htail
    intro hbt c hc
    have ha : a = '\n' := by simpa using hbt
    subst ha
    exact hhead c (by simpa [Option.mem_def] using hc) rfl

theorem collapseSpAux_eq_self {l : List Char} :
    List.Chain' spOk l →
    ∀ b : Bool, (b = true → ∀ c, l.head? = some c → c ≠ ' ') →
    collapseSpAux b l = l := by
  induction l with
  | nil => intro _ b _; simp [collapseSpAux]
  | cons a rest ih =>
    intro hch b hb
    obtain ⟨hhead, htail⟩ := List.chain'_cons'.mp hch
    simp only [collapseSpAux]
    have hcond : (b && (a == ' ')) = false := by
      cases b with
      | false => rfl
      | true =>
        have := hb rfl a rfl
        simp [this]
    rw [hcond]
    simp only [Bool.false_eq_true, if_false]
    congr 1
    apply ih htail
    intro hbt c hc
    have ha : a = ' ' := by simpa using hbt
    subst ha
    exact hhead c (by simpa [Option.mem_def] using hc) rfl

/-! ### `pyStrip` properties -/

theorem pyStrip_eq_rdrop (l : List Char) :
    pyStrip l = List.rdropWhile isPyWS (l.dropWhile isPyWS) := rfl

theorem pyStrip_within (l : List Char) : pyStrip l <:+: l := by
  rw [pyStrip_eq_rdrop]
  exact List.IsInfix.trans
    ( List.IsPrefix.isInfix ( List.rdropWhile_prefix isPyWS (l.dropWhile isPyWS)))
    ( List.IsSuffix.isInfix ( List.dropWhile_suffix isPyWS))

theorem mem_pyStrip {c : Char} {l : List Char} (h : c ∈ pyStrip l) : c ∈ l :=
  ( List.IsInfix.sublist (pyStrip_within l)).subset h

theorem chain_pyStrip {R : Char → Char → Prop} {l : List Char}
    (h : List.Chain' R l) : List.Chain' R (pyStrip l) :=
  List.Chain'.infix h (pyStrip_within l)

theorem head_dropWhileWS {l : List Char} :
    ∀ {c : Char}, (l.dropWhile isPyWS).head? = some c → isPyWS c = false := by
  induction l with
  | nil => intro c h; simp at h
  | cons a rest ih =>
    intro c h
    rw [List.dropWhile_cons] at h
    by_cases ha : isPyWS a = true
    · rw [if_pos ha] at h
      exact ih h
    · rw [if_neg ha] at h
      simp only [List.head?_cons, Option.some.injEq] at h
      rw [← h]
      cases hval : isPyWS a with
      | false => rfl
      | true => exact absurd hval ha

theorem head_pyStrip {l : List Char} {c : Char}
    (h : (pyStrip l).head? = some c) : isPyWS c = false := by
  have hpre : pyStrip l <+: l.dropWhile isPyWS := by
    rw [pyStrip_eq_rdrop]
    exact List.rdropWhile_prefix isPyWS (l.dropWhile isPyWS)
  obtain ⟨t, ht⟩ := hpre
  cases hps : pyStrip l with
  | nil => rw [hps] at h; simp at h
  | cons x xs =>
    rw [hps] at h
    simp only [List.head?_cons, Option.some.injEq] at h
    have hx : (l.dropWhile isPyWS).head? = some x := by
      rw [← ht, hps]; rfl
    rw [← h]
    exact head_dropWhileWS hx

theorem last_pyStrip {l : List Char} {c : Char}
    (h : (pyStrip l).getLast? = some c) : isPyWS c = false := by
  unfold pyStrip at h
  rw [List.getLast?_reverse] at h
  exact head_dropWhileWS h

theorem pyStrip_eq_self {l : List Char}
    (h1 : ∀ c, l.head? = some c → isPyWS c = false)
    (h2 : ∀ c, l.getLast? = some c → isPyWS c = false) :
    pyStrip l = l := by
  have hd : l.dropWhile isPyWS = l := by
    cases l with
    | nil => rfl
    | cons a rest =>
      rw [List.dropWhile_cons, if_neg]
      rw [h1 a rfl]
      simp
  rw [pyStrip_eq_rdrop, hd]
  rw [List.rdropWhile_eq_self_iff]
  intro hl hp
  have := h2 (l.getLast hl) (List.getLast?_eq_getLast l hl)
  rw [this] at hp
  exact absurd hp (by simp)

/-! ### Invariants of the normalizer output -/

theorem allowed_normalizeL {l : List Char} {c : Char} (hc : c ∈ normalizeL l) :
    isAllowed c = true := by
  unfold normalizeL collapseSp collapseNL at hc
  have h1 := mem_pyStrip hc
  have h2 := mem_collapseSpAux h1
  have h3 := mem_collapseNLAux h2
  obtain ⟨d, _, hd⟩ := List.mem_map.mp h3
  rw [← hd]
  exact isAllowed_toSpace d

theorem chain_nlOk_normalizeL (l : List Char) :
    List.Chain' nlOk (normalizeL l) := by
  unfold normalizeL collapseSp collapseNL
  apply chain_pyStrip
  exact chain_nlOk_collapseSpAux (chain_nlOk_collapseNLAux _ false) false

theorem chain_spOk_normalizeL (l : List Char) :
    List.Chain' spOk (normalizeL l) := by
  unfold normalizeL collapseSp
  apply chain_pyStrip
  exact chain_spOk_collapseSpAux _ false

theorem head_normalizeL_not_ws {l : List Char} {c : Char}
    (h : (normalizeL l).head? = some c) : isPyWS c = false :=
  head_pyStrip h

theorem last_normalizeL_not_ws {l : List Char} {c : Char}
    (h : (normalizeL l).getLast? = some c) : isPyWS c = false :=
  last_pyStrip h

/-! ### Identity of each normalizer pass on already-normalized text -/

theorem pyLower_allowed {c : Char} (h : isAllowed c = true) : pyLower c = c := by
  unfold pyLower
  split
  · next hAZ =>
    exfalso
    obtain ⟨h1, h2⟩ := hAZ
    simp only [isAllowed, Bool.or_eq_true, Bool.and_eq_true, decide_eq_true_eq] at h
    rcases h with (((((⟨h3, _⟩ | h5) | h5) | h5) | h5) | h5)
    · exact absurd (le_trans h3 h2) (by decide)
    · rw [h5] at h1; revert h1; decide
    · rw [h5] at h1; revert h1; decide
    · rw [h5] at h1; revert h1; decide
    · rw [h5] at h1; revert h1; decide
    · rw [h5] at h1; revert h1; decide
  · rfl

theorem fixApos_eq (c : Char) : fixApos c = c := by
  unfold fixApos
  split
  · next h => exact h.symm
  · rfl

theorem toSpace_allowed {c : Char} (h : isAllowed c = true) : toSpace c = c := by
  unfold toSpace
  rw [if_pos h]

theorem map_pyLower_id {l : List Char} (h : ∀ c ∈ l, isAllowed c = true) :
    l.map pyLower = l := by
  have := List.map_congr_left (fun c hc => pyLower_allowed (h c hc))
  simpa using this

theorem map_fixApos_id (l : List Char) : l.map fixApos = l := by
  have := List.map_congr_left (fun c (_ : c ∈ l) => fixApos_eq c)
  simpa using this

theorem map_toSpace_id {l : List Char} (h : ∀ c ∈ l, isAllowed c = true) :
    l.map toSpace = l := by
  have := List.map_congr_left (fun c hc => toSpace_allowed (h c hc))
  simpa using this

/-- The normalizer is idempotent at the character-list level. -/
theorem normalizeL_idem (l : List Char) :
    normalizeL (normalizeL l) = normalizeL l := by
  have hall : ∀ c ∈ normalizeL l, isAllowed c = true :=
    fun c hc => allowed_normalizeL hc
  have h1 : (normalizeL l).map pyLower = normalizeL l := map_pyLower_id hall
  have h2 : (normalizeL l).map fixApos = normalizeL l := map_fixApos_id _
  have h3 : (normalizeL l).map toSpace = normalizeL l := map_toSpace_id hall
  have hnl : collapseNLAux false (normalizeL l) = normalizeL l :=
    collapseNLAux_eq_self (chain_nlOk_normalizeL l) false (by intro h; cases h)
  have hsp : collapseSpAux false (normalizeL l) = normalizeL l :=
    collapseSpAux_eq_self (chain_spOk_normalizeL l) false (by intro h; cases h)
  have hstrip : pyStrip (normalizeL l) = normalizeL l := by
    apply pyStrip_eq_self
    · exact fun c hc => head_normalizeL_not_ws hc
    · exact fun c hc => last_normalizeL_not_ws hc
  show pyStrip (collapseSp (collapseNL
      ((((normalizeL l).map pyLower).map fixApos).map toSpace))) = normalizeL l
  rw [h1, h2, h3]
  show pyStrip (collapseSpAux false (collapseNLAux false (normalizeL l))) = _
  rw [hnl, hsp, hstrip]

/-! ### Claim theorems -/

/-- C3 (counterexample): `normalize("Hello,  World!\n\n(oohh)")` is NOT the
string `"hello world\n(oohh)"` claimed by the spec — the space left before
the newline by the punctuation replacement survives, because the
newline-collapsing regex `\n[\n ]+` only eats whitespace after a newline,
and the space-collapse pass keeps a single space. -/
theorem c3_counterexample :
    normalize_uroman "Hello,  World!\n\n(oohh)" ≠ "hello world\n(oohh)" := by
  decide

/-- C3 (amended): `normalize("Hello,  World!\n\n(oohh)")` returns exactly
`"hello world \n(oohh)"`, with a space before the newline. -/
theorem c3_normalize_scenario_amended :
    normalize_uroman "Hello,  World!\n\n(oohh)" = "hello world \n(oohh)" := by
  decide

/-- C4: `normalize` is idempotent — for every string `s`,
`normalize(normalize(s)) = normalize(s)`. -/
theorem c4_normalize_idempotent (s : String) :
    normalize_uroman (normalize_uroman s) = normalize_uroman s := by
  show String.mk (normalizeL (normalizeL s.toList)) = String.mk (normalizeL s.toList)
  rw [normalizeL_idem]

/-- C5: character-set closure — every character of `normalize(s)` is a
lowercase ASCII letter, the apostrophe, the space, the newline, `(` or `)`. -/
theorem c5_charset_closure (s : String) :
    ∀ c ∈ (normalize_uroman s).toList,
      ('a' ≤ c ∧ c ≤ 'z') ∨ c = '\'' ∨ c = ' ' ∨ c = '\n' ∨ c = '(' ∨ c = ')' := by
  intro c hc
  have h : isAllowed c = true := allowed_normalizeL (l := s.toList) hc
  simp only [isAllowed, Bool.or_eq_true, Bool.and_eq_true, decide_eq_true_eq] at h
  tauto

/-- Witness for C5 at the concrete input `"A!"` (which normalizes to `"a"`). -/
theorem c5_charset_closure_witness :
    ('a' ≤ 'a' ∧ 'a' ≤ 'z') ∨ 'a' = '\'' ∨ 'a' = ' ' ∨ 'a' = '\n' ∨
      'a' = '(' ∨ 'a' = ')' :=
  c5_charset_closure "A!" 'a' (by decide)

/-- C7: the Japanese splitter on `"kyou"` returns exactly `["kyo", "u"]`:
the palatalized `ky` stays one onset and a boundary falls between the
vowels `o` and `u`.  The result is independent of the English hyphenator. -/
theorem c7_kyou_split (hyph : String → String) :
    auto_split hyph "kyou" "ja" = ["kyo", "u"] := rfl

/-- C8: the custom-dictionary hit takes precedence over hyphenation —
`split("gonna", "en") = ["gon", "na"]` regardless of what the hyphenator
would return (the result does not depend on `hyph` at all). -/
theorem c8_gonna_dictionary (hyph : String → String) :
    auto_split hyph "gonna" "en" = ["gon", "na"] := rfl

/-- C10: a raw line that is non-empty but consists only of characters the
normalizer removes (here `"123"`) is kept as a Line (it survives the
blank-line filter, which checks raw emptiness), and its word list is empty
because its normalized transcript is empty. -/
theorem c10_unnormalizable_line_kept :
    "123" ∈ lyricsLineRaws "a\n123\nb" ∧ "123" ≠ "" ∧
      lineWordRaws "123" = [] ∧ (lyricsLineRaws "a\n123\nb").length = 3 := by
  decide

/-- C2 (counterexample): with the invalid language selector `"fr"`, no
error is surfaced: `auto_split` happily performs Japanese segmentation
(the embedding is total because the source's `if language == "en"` has a
bare `else` branch commented `Japanese (default)`), contradicting the
claim that an InvalidLanguage error is raised before any segmentation
work. -/
theorem c2_counterexample :
    auto_split (fun s => s) "kyou" "fr" = ["kyo", "u"] ∧
      auto_split (fun s => s) "kyou" "fr" = auto_split (fun s => s) "kyou" "ja" := by
  decide

/-- C2 (amended): a language selector other than `"en"` is silently
treated as Japanese — `auto_split(w, L) = auto_split(w, "ja")` for every
`L ≠ "en"`; no validation or error path exists in the segmentation core. -/
theorem c2_invalid_language_defaults_japanese
    (hyph : String → String) (w : String) (lang : String) (h : lang ≠ "en") :
    auto_split hyph w lang = auto_split hyph w "ja" := by
  unfold auto_split
  rw [if_neg h, if_neg (by decide : ¬("ja" : String) = "en")]

/-- Witness for C2 (amended) at the concrete invalid selector `"fr"`. -/
theorem c2_invalid_language_defaults_japanese_witness :
    auto_split (fun s => s) "kyou" "fr" = auto_split (fun s => s) "kyou" "ja" :=
  c2_invalid_language_defaults_japanese (fun s => s) "kyou" "fr" (by decide)

/-! ### Syllable reconstruction (C1) -/

/-- Dropping empty fragments does not change the concatenation. -/
theorem flatten_filter_nonempty (L : List (List Char)) :
    (L.filter (fun f => !f.isEmpty)).flatten = L.flatten := by
  induction L with
  | nil => rfl
  | cons a t ih =>
    by_cases ha : a.isEmpty = true
    · have ha' : a = [] := by simpa using ha
      subst ha'
      simpa [List.filter_cons] using ih
    · simp [List.filter_cons, ha, ih]

theorem hasMarker_tail {c : Char} {rest : List Char}
    (h : hasMarker (c :: rest) = false) : hasMarker rest = false := by
  cases rest with
  | nil => rfl
  | cons d r =>
    simp only [hasMarker, Bool.or_eq_false_iff] at h
    exact h.2

theorem hasMarker_head {c d : Char} {rest : List Char}
    (h : hasMarker (c :: d :: rest) = false) : (c = '#' && d = '@') = false := by
  simp only [hasMarker, Bool.or_eq_false_iff] at h
  exact h.1

/-- Key round-trip lemma: in the middle of the scan (a fragment `acc`
accumulated, the character `c` about to be consumed), splitting the marked
tail on `#@` concatenates back to the original characters, provided the
original word contains no literal `#@`. -/
theorem splitMarker_marked_cons :
    ∀ (rest : List Char) (c : Char) (acc : List Char),
      hasMarker (c :: rest) = false →
      (splitOnMarkerAux acc (c :: markedAux (some c) rest)).flatten =
        acc.reverse ++ c :: rest := by
  intro rest
  induction rest with
  | nil =>
    intro c acc _
    simp [markedAux, splitOnMarkerAux]
  | cons d r ih =>
    intro c acc h
    have hr : hasMarker (d :: r) = false := hasMarker_tail h
    have hcd : (c = '#' && d = '@') = false := hasMarker_head h
    rw [markedAux]
    by_cases hb : jaBoundary (some c) d = true
    · rw [if_pos hb]
      show (splitOnMarkerAux acc
        (c :: '#' :: '@' :: d :: markedAux (some d) r)).flatten = _
      rw [splitOnMarkerAux]
      rw [show ((c = '#' && ('#' : Char) = '@')) = false by simp]
      simp only [Bool.false_eq_true, if_false]
      rw [splitOnMarkerAux]
      rw [show ((('#' : Char) = '#' && ('@' : Char) = '@')) = true by simp]
      simp only [if_true]
      rw [List.flatten_cons, ih d []]
      · simp
      · exact hr
    · rw [if_neg hb]
      show (splitOnMarkerAux acc (c :: d :: markedAux (some d) r)).flatten = _
      rw [splitOnMarkerAux]
      rw [hcd]
      simp only [Bool.false_eq_true, if_false]
      rw [ih d (c :: acc) hr]
      simp

/-- Splitting the fully marked word on `#@` concatenates back to the word. -/
theorem splitMarker_marked (w : List Char) (acc : List Char)
    (h : hasMarker w = false) :
    (splitOnMarkerAux acc (markedAux none w)).flatten = acc.reverse ++ w := by
  cases w with
  | nil => simp [markedAux, splitOnMarkerAux]
  | cons c rest =>
    rw [markedAux]
    by_cases hb : jaBoundary none c = true
    · rw [if_pos hb]
      show (splitOnMarkerAux acc
        ('#' :: '@' :: c :: markedAux (some c) rest)).flatten = _
      rw [splitOnMarkerAux]
      rw [show ((('#' : Char) = '#' && ('@' : Char) = '@')) = true by simp]
      simp only [if_true]
      rw [List.flatten_cons, splitMarker_marked_cons rest c [] h]
      simp
    · rw [if_neg hb]
      show (splitOnMarkerAux acc (c :: markedAux (some c) rest)).flatten = _
      rw [splitMarker_marked_cons rest c acc h]

/-- The Japanese splitter reconstructs any word free of the internal
marker `#@`. -/
theorem ja_reconstruct {w : List Char} (h : hasMarker w = false) :
    (jaSplitL w).flatten = w := by
  unfold jaSplitL marked
  rw [flatten_filter_nonempty]
  simpa using splitMarker_marked w [] h

/-- Splitting on `|` and concatenating equals removing every `|`. -/
theorem flatten_splitOnPipeAux :
    ∀ (l acc : List Char),
      (splitOnPipeAux acc l).flatten =
        acc.reverse ++ l.filter (fun c => c != '|') := by
  intro l
  induction l with
  | nil => intro acc; simp [splitOnPipeAux]
  | cons c rest ih =>
    intro acc
    rw [splitOnPipeAux]
    by_cases hc : c = '|'
    · rw [if_pos hc, List.flatten_cons, ih []]
      subst hc
      simp [List.filter_cons]
    · rw [if_neg hc, ih (c :: acc)]
      simp [List.filter_cons, hc]

/-- Every custom-dictionary entry except `"everyday"` concatenates back to
its key (the `"everyday"` entry drops the letter `e`). -/
theorem dict_reconstruct :
    ∀ p ∈ customEnglishSyllables, p.1 ≠ "everyday" → String.join p.2 = p.1 := by
  decide

/-- A successful association-list lookup yields a member pair. -/
theorem lookup_mem {α β : Type} [BEq α] [LawfulBEq α] :
    ∀ {l : List (α × β)} {a : α} {b : β}, l.lookup a = some b → (a, b) ∈ l := by
  intro l
  induction l with
  | nil => intro a b h; simp at h
  | cons p es ih =>
    intro a b h
    rw [List.lookup_cons] at h
    cases hak : a == p.1 with
    | true =>
      rw [hak] at h
      have hb : p.2 = b := by simpa using h
      have ha : a = p.1 := eq_of_beq hak
      rw [ha, ← hb]
      exact List.mem_cons_self _ _
    | false =>
      have : es.lookup a = some b := by
        rw [hak] at h
        exact h
      exact List.mem_cons_of_mem _ (ih this)

/-- C1 (counterexample): concatenating `split("everyday", "en")` yields
`"evryday"`, not `"everyday"` — the custom dictionary entry
`["ev", "ry", "day"]` drops a letter, so the reconstruction property fails
as universally stated. -/
theorem c1_counterexample :
    auto_split (fun s => s) "everyday" "en" = ["ev", "ry", "day"] ∧
      String.join (auto_split (fun s => s) "everyday" "en") = "evryday" ∧
      "evryday" ≠ "everyday" := by
  decide

/-- C1 (amended): for every word `w` and language `L ∈ {ja, en}`,
concatenating `auto_split(w, L)` yields exactly `w`, except for the single
dictionary word `"everyday"` in English; for the Japanese branch `w` must
not contain the internal marker `#@` (impossible for normalizer output),
and for the English pyphen fallback the hyphenator is assumed to only
insert `|` separators (its documented behaviour), stated as: removing all
`|` from `hyph w` gives back `w`. -/
theorem c1_syllable_reconstruction_amended
    (hyph : String → String) (w : String) (lang : String)
    (_hlang : lang = "ja" ∨ lang = "en")
    (hmark : hasMarker w.toList = false)
    (hpy : (hyph w).toList.filter (fun c => c != '|') = w.toList)
    (hw : w ≠ "everyday") :
    String.join (auto_split hyph w lang) = w := by
  unfold auto_split
  by_cases hen : lang = "en"
  · rw [if_pos hen]
    unfold split_english
    cases hlk : customEnglishSyllables.lookup w with
    | some syls =>
      exact dict_reconstruct (w, syls) (lookup_mem hlk) hw
    | none =>
      show String.join (if (hyph w).isEmpty = true then [w]
        else (splitOnPipeAux [] (hyph w).toList).map String.mk) = w
      by_cases hres : (hyph w).isEmpty = true
      · rw [if_pos hres]
        show String.join [w] = w
        cases w
        rfl
      · rw [if_neg hres]
        rw [join_map_mk, flatten_splitOnPipeAux _ []]
        simp only [List.reverse_nil, List.nil_append]
        rw [hpy]
        exact mk_toList w
  · rw [if_neg hen]
    rw [join_map_mk, ja_reconstruct hmark]
    exact mk_toList w

/-- Witness for C1 (amended) at the Japanese word `"kyou"` with the
identity hyphenator. -/
theorem c1_syllable_reconstruction_amended_witness :
    (("ja" : String) = "ja" ∨ ("ja" : String) = "en") ∧
      hasMarker "kyou".toList = false ∧
      "kyou".toList.filter (fun c => c != '|') = "kyou".toList ∧
      ("kyou" : String) ≠ "everyday" ∧
      String.join (auto_split (fun s => s) "kyou" "ja") = "kyou" :=
  ⟨Or.inl rfl, by decide, by decide, by decide,
    c1_syllable_reconstruction_amended (fun s => s) "kyou" "ja" (Or.inl rfl)
      (by decide) (by decide) (by decide)⟩

/-! ### Tokenization claims (C6, C9) -/

/-- Every character of every token of `splitWs` comes from the accumulator
or the input. -/
theorem mem_splitWsAux {c : Char} :
    ∀ {l acc : List Char} {t : List Char},
      t ∈ splitWsAux acc l → c ∈ t → c ∈ acc ∨ c ∈ l := by
  intro l
  induction l with
  | nil =>
    intro acc t ht hc
    simp only [splitWsAux] at ht
    by_cases ha : acc.isEmpty = true
    · rw [if_pos ha] at ht
      simp at ht
    · rw [if_neg ha] at ht
      simp only [List.mem_singleton] at ht
      subst ht
      exact Or.inl (List.mem_reverse.mp hc)
  | cons a rest ih =>
    intro acc t ht hc
    simp only [splitWsAux] at ht
    by_cases hws : isPyWS a = true
    · rw [if_pos hws] at ht
      by_cases ha : acc.isEmpty = true
      · rw [if_pos ha] at ht
        rcases ih ht hc with h | h
        · simp at h
        · exact Or.inr (List.mem_cons_of_mem _ h)
      · rw [if_neg ha] at ht
        rcases List.mem_cons.mp ht with h1 | h2
        · subst h1
          exact Or.inl (List.mem_reverse.mp hc)
        · rcases ih h2 hc with h | h
          · simp at h
          · exact Or.inr (List.mem_cons_of_mem _ h)
    · rw [if_neg hws] at ht
      rcases ih ht hc with h | h
      · rcases List.mem_cons.mp h with h1 | h2
        · exact Or.inr (h1 ▸ List.mem_cons_self _ _)
        · exact Or.inl h2
      · exact Or.inr (List.mem_cons_of_mem _ h)

theorem paren_not_mem_stripParensL (l : List Char) :
    '(' ∉ stripParensL l ∧ ')' ∉ stripParensL l := by
  constructor
  · intro h
    have h1 := (List.mem_filter.mp h).1
    have h2 := (List.mem_filter.mp h1).2
    simp at h2
  · intro h
    have h2 := (List.mem_filter.mp h).2
    simp at h2

/-- C6: no token of `transcript_for_alignment` contains `(` or `)` (the
parentheses are stripped before whitespace splitting), while tokens of
`transcript` may contain them (witnessed by the raw text `"(oohh)"`). -/
theorem c6_paren_stripping :
    (∀ (raw t : String), t ∈ transcript_for_alignment raw →
        '(' ∉ t.toList ∧ ')' ∉ t.toList) ∧
      (∃ (raw t : String), t ∈ transcript raw ∧ '(' ∈ t.toList) := by
  constructor
  · intro raw t ht
    unfold transcript_for_alignment splitWs at ht
    obtain ⟨f, hf, rfl⟩ := List.mem_map.mp ht
    constructor
    · intro hc
      rcases mem_splitWsAux hf (show '(' ∈ f from hc) with h | h
      · simp at h
      · exact (paren_not_mem_stripParensL (normalizeL raw.toList)).1 h
    · intro hc
      rcases mem_splitWsAux hf (show ')' ∈ f from hc) with h | h
      · simp at h
      · exact (paren_not_mem_stripParensL (normalizeL raw.toList)).2 h
  · exact ⟨"(oohh)", "(oohh)", by decide, by decide⟩

/-- Witness for C6 at the raw text `"(oohh)"`, whose alignment transcript
is `["oohh"]`. -/
theorem c6_paren_stripping_witness :
    '(' ∉ ("oohh" : String).toList ∧ ')' ∉ ("oohh" : String).toList :=
  c6_paren_stripping.1 "(oohh)" "oohh" (by decide)

/-- C9: no Line of a Lyrics and no Word of a Line has empty raw text, and
in the scenario `Lyrics("Line one\n\nLine two")` there are exactly 2 lines
(the blank line is dropped), each with exactly 2 words. -/
theorem c9_nonempty_lines_words :
    (∀ raw : String, ∀ l ∈ lyricsLineRaws raw, l ≠ "") ∧
      (∀ raw : String, ∀ w ∈ lineWordRaws raw, w ≠ "") ∧
      (lyricsLineRaws "Line one\n\nLine two").length = 2 ∧
      (∀ l ∈ lyricsLineRaws "Line one\n\nLine two", (lineWordRaws l).length = 2) := by
  refine ⟨?_, ?_, by decide, by decide⟩
  · intro raw l hl
    unfold lyricsLineRaws at hl
    obtain ⟨f, hf, hmk⟩ := List.mem_map.mp hl
    have hne : (!f.isEmpty) = true := (List.mem_filter.mp hf).2
    intro hcontra
    rw [← hmk] at hcontra
    have hfe : f = [] := by
      have := congrArg String.toList hcontra
      simpa using this
    rw [hfe] at hne
    simp at hne
  · intro raw w hw
    have h2 := (List.mem_filter.mp hw).2
    intro hc
    rw [hc] at h2
    exact absurd h2 (by decide)

/-- Witness for C9 at the scenario input: the line `"Line one"` and the
word `"one"` are non-empty. -/
theorem c9_nonempty_lines_words_witness :
    ("Line one" : String) ≠ "" ∧ ("one" : String) ≠ "" :=
  ⟨c9_nonempty_lines_words.1 "Line one\n\nLine two" "Line one" (by decide),
    c9_nonempty_lines_words.2.1 "Line one" "one" (by decide)⟩

end Yohane
